import Mathlib

/-!
Verification of the Market Basket Recommendation System engine
(`app.py`: `_clean_name` and `SimpleRecommendationEngine.get_recommendations`).

Embedding conventions:
* Python strings are sequences of code points, modelled as `List ℕ` (`PyStr`).
* Python floats are modelled as rationals `ℚ`; `round(x, d)` is modelled by
  `roundTo d` (round to nearest multiple of `10⁻ᵈ`).
* Python dicts (`defaultdict` accumulators, the count mappings) are modelled as
  insertion-ordered association lists; `dict.get(k, 0)` is `icGet`.
* Python sets of strings are modelled as deduplicated lists; only membership,
  subset and difference are used, plus iteration (determinised to first-seen
  order, which fixes only tie-breaking that no property depends on).
* `list.sort(key=..., reverse=True)` (a stable descending sort) is modelled by
  `List.insertionSort` with the relation `b.score ≤ a.score`, which is stable
  in the same sense.
-/

/-- A Python string as a list of code points. -/
abbrev PyStr := List ℕ

/-- Code points of a Lean string literal, for readable concrete inputs. -/
def pystr (s : String) : PyStr := s.toList.map Char.toNat

/-- Python `str` whitespace (the ASCII part relevant to `strip`/`split`):
tab, newline, vertical tab, form feed, carriage return, space. -/
def isSpace (c : ℕ) : Bool := c = 9 || c = 10 || c = 11 || c = 12 || c = 13 || c = 32

/-- Python `str.lower` restricted to ASCII: map `A`-`Z` to `a`-`z`. -/
def toLower (c : ℕ) : ℕ := if 65 ≤ c ∧ c ≤ 90 then c + 32 else c

/-- `s.strip()`: drop leading and trailing whitespace. -/
def pyStrip (l : PyStr) : PyStr :=
  (((l.dropWhile isSpace).reverse.dropWhile isSpace)).reverse

/-- Helper for `str.split()` with no separator: accumulate the current word
(reversed in `acc`), emitting it at each whitespace run or at the end. -/
def wordsAux : List ℕ → List ℕ → List (List ℕ)
  | acc, [] => if acc.isEmpty then [] else [acc.reverse]
  | acc, c :: cs =>
    if isSpace c then
      if acc.isEmpty then wordsAux [] cs else acc.reverse :: wordsAux [] cs
    else wordsAux (c :: acc) cs

/-- `s.split()`: the whitespace-separated words of `s`, empties dropped. -/
def words (l : PyStr) : List (List ℕ) := wordsAux [] l

/-- `" ".join(ws)`: interleave a single space (code point 32) between words. -/
def joinWords : List (List ℕ) → PyStr
  | [] => []
  | [w] => w
  | w :: w2 :: ws => w ++ 32 :: joinWords (w2 :: ws)

/-- The code points of the literal `" (SKU:"`. -/
def skuPat : PyStr := [32, 40, 83, 75, 85, 58]

/-- `pat in x`: does `pat` occur as a contiguous substring of `l`? -/
def containsPat (pat : PyStr) : PyStr → Bool
  | [] => pat.isPrefixOf ([] : List ℕ)
  | c :: cs => pat.isPrefixOf (c :: cs) || containsPat pat cs

/-- `x.split(pat)[0]`: the prefix of `l` before the first occurrence of `pat`
(`l` itself when `pat` does not occur). -/
def takeBefore (pat : PyStr) : PyStr → PyStr
  | [] => []
  | c :: cs => if pat.isPrefixOf (c :: cs) then [] else c :: takeBefore pat cs

/-- `_clean_name` from `app.py` (on actual strings; non-strings never reach the
engine's comparisons in this model): strip, drop a `" (SKU:"` annotation,
collapse internal whitespace to single spaces, lowercase. -/
def cleanName (x : PyStr) : PyStr :=
  let x1 := pyStrip x
  let x2 := if containsPat skuPat x1 then takeBefore skuPat x1 else x1
  (joinWords (words x2)).map toLower

/-- `round(q, d)` : round to `d` decimal places (ties as in Mathlib's `round`;
no property below depends on tie direction). -/
def roundTo (d : ℕ) (q : ℚ) : ℚ := (round (q * 10 ^ d) : ℚ) / 10 ^ d

/-! ### Engine data model -/

/-- One association rule (a row of the rules table). -/
structure Rule where
  antecedents : List PyStr
  consequents : List PyStr
  confidence : ℚ
  lift : ℚ
  support : ℚ
deriving DecidableEq

/-- The per-item accumulator of the rule-based path
(`defaultdict(lambda: {"confidence": 0.0, "lift": 0.0, "support": 0.0, "count": 0})`). -/
structure Agg where
  confidence : ℚ
  lift : ℚ
  support : ℚ
  count : ℕ
deriving DecidableEq

/-- The per-candidate accumulator of the co-occurrence fallback
(`defaultdict(lambda: {"pair": 0, "den": 0})`). -/
structure CoScore where
  pair : ℕ
  den : ℕ
deriving DecidableEq

/-- The `source` tag of an output record: `"rules"` or `"cooccurrence"`. -/
inductive Source where
  | rules : Source
  | cooccurrence : Source
deriving DecidableEq

/-- A recommendation record; `lift = none` models Python `None`. -/
structure Rec where
  product : PyStr
  confidence : ℚ
  lift : Option ℚ
  support : ℚ
  score : ℚ
  frequency : ℕ
  source : Source
deriving DecidableEq

/-- `SimpleRecommendationEngine`'s state: `rules` (`None` or a data frame,
modelled as a list of rows), `item_counts` and `pair_counts` (`None` or
dicts, modelled as insertion-ordered association lists). -/
structure Engine where
  rules : Option (List Rule)
  item_counts : Option (List (PyStr × ℕ))
  pair_counts : Option (List ((PyStr × PyStr) × ℕ))

/-! ### The engine -/

/-- `{_clean_name(c) for c in cart_items if isinstance(c, str) and c.strip()}`:
the normalized cart set, as a first-seen-order deduplicated list. -/
def cleanCart (cart : List PyStr) : List PyStr :=
  ((cart.filter (fun c => !(pyStrip c).isEmpty)).map cleanName).dedup

/-- One `agg[item]` update of the rule-based path: starting from the
defaultdict default when the key is absent, take `max` of confidence and lift,
add support, bump the count. New keys are appended (dict insertion order). -/
def updateAgg (conf lft sup : ℚ) : List (PyStr × Agg) → PyStr → List (PyStr × Agg)
  | [], k =>
    [(k, { confidence := max 0 conf, lift := max 0 lft, support := 0 + sup, count := 0 + 1 })]
  | (k2, a) :: rest, k =>
    if k2 = k then
      (k2, { confidence := max a.confidence conf, lift := max a.lift lft,
             support := a.support + sup, count := a.count + 1 }) :: rest
    else (k2, a) :: updateAgg conf lft sup rest k

/-- The cleaned antecedents of a rule (`ants_lower` before set formation). -/
def antsLower (r : Rule) : List PyStr := r.antecedents.map cleanName

/-- The cleaned consequents of a rule as a set (`cons_lower`). -/
def consLower (r : Rule) : List PyStr := (r.consequents.map cleanName).dedup

/-- `new_items_lower = cons_lower - cart_set_lower`. -/
def newItems (cartSet : List PyStr) (r : Rule) : List PyStr :=
  (consLower r).filter (fun c => !cartSet.contains c)

/-- `next((orig for orig in rule["consequents"] if _clean_name(orig) == item_lower), item_lower)`. -/
def resolveOrig (r : Rule) (itemLower : PyStr) : PyStr :=
  (r.consequents.find? (fun orig => cleanName orig = itemLower)).getD itemLower

/-- The body of the `for _, rule in self.rules.iterrows()` loop: gate the rule
on antecedent-subset, new items, confidence and lift, then fold its new items
into the accumulator. -/
def processRule (cartSet : List PyStr) (minConf minLift : ℚ)
    (agg : List (PyStr × Agg)) (r : Rule) : List (PyStr × Agg) :=
  if (antsLower r).all (fun a => cartSet.contains a) then
    let new := newItems cartSet r
    if ¬new.isEmpty ∧ minConf ≤ r.confidence ∧ minLift ≤ r.lift then
      new.foldl (fun ag il => updateAgg r.confidence r.lift r.support ag (resolveOrig r il)) agg
    else agg
  else agg

/-- The whole rule loop: fold all rules into the (initially empty) accumulator. -/
def ruleAgg (rl : List Rule) (cartSet : List PyStr) (minConf minLift : ℚ) :
    List (PyStr × Agg) :=
  rl.foldl (processRule cartSet minConf minLift) []

/-- One `rule_recs.append({...})` record built from an accumulator entry:
`score = confidence*0.5 + lift*0.3 + support*0.2`, rounded fields. -/
def ruleRecOf (p : PyStr × Agg) : Rec :=
  let s := p.2
  let score := s.confidence * (1 / 2) + s.lift * (3 / 10) + s.support * (1 / 5)
  { product := p.1, confidence := roundTo 3 s.confidence,
    lift := some (roundTo 3 s.lift), support := roundTo 4 s.support,
    score := roundTo 3 score, frequency := s.count, source := Source.rules }

/-- Build the `rule_recs` records from the accumulator (before sorting). -/
def buildRuleRecs (agg : List (PyStr × Agg)) : List Rec :=
  agg.map ruleRecOf

/-- The relation of `xs.sort(key=lambda x: x["score"], reverse=True)`. -/
def recGE (a b : Rec) : Prop := b.score ≤ a.score

instance : DecidableRel recGE := fun a b => inferInstanceAs (Decidable (b.score ≤ a.score))

instance : IsTotal Rec recGE := ⟨fun a b => le_total b.score a.score⟩

instance : IsTrans Rec recGE := ⟨fun _ _ _ h h2 => le_trans h2 h⟩

/-- Python's stable descending sort by `score`. -/
def sortRecs (l : List Rec) : List Rec := l.insertionSort recGE

/-- `name_map[_clean_name(it)] = it` over `item_counts.keys()`, last write
wins; lookup of a cleaned key. -/
def nameMapLookup (ic : List (PyStr × ℕ)) (k : PyStr) : Option PyStr :=
  ((ic.map Prod.fst).reverse.find? (fun it => cleanName it = k))

/-- `self.item_counts.get(key, 0)`. -/
def icGet (ic : List (PyStr × ℕ)) (k : PyStr) : ℕ :=
  ((ic.find? (fun p => p.1 = k)).map Prod.snd).getD 0

/-- One `scores[other]` update of the fallback: add the pair count and the
cart item's own count; new keys appended (dict insertion order). -/
def updScore (p d : ℕ) : List (PyStr × CoScore) → PyStr → List (PyStr × CoScore)
  | [], k => [(k, { pair := 0 + p, den := 0 + d })]
  | (k2, s) :: rest, k =>
    if k2 = k then (k2, { pair := s.pair + p, den := s.den + d }) :: rest
    else (k2, s) :: updScore p d rest k

/-- The body of the `for (a, b), pcount in self.pair_counts.items()` loop for
one known cart item `cOrig` with count `cCount`. -/
def coStep (cartSet : List PyStr) (cOrig : PyStr) (cCount : ℕ)
    (sc : List (PyStr × CoScore)) (entry : (PyStr × PyStr) × ℕ) : List (PyStr × CoScore) :=
  let a := entry.1.1
  let b := entry.1.2
  if a = cOrig ∨ b = cOrig then
    let other := if a = cOrig then b else a
    if cartSet.contains (cleanName other) then sc
    else updScore entry.2 cCount sc other
  else sc

/-- The `for c in cart_known` loop of the fallback. -/
def coScores (ic : List (PyStr × ℕ)) (pc : List ((PyStr × PyStr) × ℕ))
    (cartSet cartKnown : List PyStr) : List (PyStr × CoScore) :=
  cartKnown.foldl (fun sc c =>
    match nameMapLookup ic c with
    | none => sc
    | some cOrig =>
      let cCount := icGet ic cOrig
      if cCount = 0 then sc
      else pc.foldl (coStep cartSet cOrig cCount) sc) []

/-- One fallback `recs.append({...})` record built from a score entry:
`conf_like = pair/den` (0 when `den` is 0), `sup_like = count/total_items`
with `total_items = max(1, sum(item_counts.values()))`,
`combined = 0.7*conf_like + 0.3*sup_like`, rounded fields, `lift = None`. -/
def coRecOf (ic : List (PyStr × ℕ)) (p : PyStr × CoScore) : Rec :=
  let totalItems : ℕ := max 1 ((ic.map Prod.snd).sum)
  let s := p.2
  let confLike : ℚ := if s.den = 0 then 0 else (s.pair : ℚ) / (s.den : ℚ)
  let supLike : ℚ := (icGet ic p.1 : ℚ) / (totalItems : ℚ)
  let combined := (7 / 10) * confLike + (3 / 10) * supLike
  { product := p.1, confidence := roundTo 3 confLike, lift := none,
    support := roundTo 4 supLike, score := roundTo 3 combined,
    frequency := icGet ic p.1, source := Source.cooccurrence }

/-- Build the fallback `recs` records from the score table (before sorting). -/
def buildCoRecs (ic : List (PyStr × ℕ)) (scores : List (PyStr × CoScore)) : List Rec :=
  scores.map (coRecOf ic)

/-- The co-occurrence fallback section of `get_recommendations`, including the
truthiness guard `if self.item_counts and self.pair_counts` and the trailing
`return []`. -/
def cooccurRecs (e : Engine) (cartSet : List PyStr) (topN : ℕ) : List Rec :=
  match e.item_counts, e.pair_counts with
  | some ic, some pc =>
    if ic.isEmpty || pc.isEmpty then []
    else
      let cartKnown := cartSet.filter (fun c => (nameMapLookup ic c).isSome)
      if cartKnown.isEmpty then []
      else
        let scores := coScores ic pc cartSet cartKnown
        if scores.isEmpty then []
        else (sortRecs (buildCoRecs ic scores)).take topN
  | _, _ => []

/-- The rule-based section: `none` when it falls through to the fallback
(rules `None`/empty or empty accumulator), `some` when it returns. -/
def ruleSection (e : Engine) (cartSet : List PyStr) (topN : ℕ) (minConf minLift : ℚ) :
    Option (List Rec) :=
  match e.rules with
  | some rl =>
    if rl.isEmpty then none
    else
      let agg := ruleAgg rl cartSet minConf minLift
      if agg.isEmpty then none
      else some ((sortRecs (buildRuleRecs agg)).take topN)
  | none => none

/-- `SimpleRecommendationEngine.get_recommendations`. -/
def get_recommendations (e : Engine) (cartItems : List PyStr) (topN : ℕ)
    (minConf minLift : ℚ) : List Rec :=
  if cartItems.isEmpty then []
  else
    let cartSet := cleanCart cartItems
    match ruleSection e cartSet topN minConf minLift with
    | some r => r
    | none => cooccurRecs e cartSet topN

/-! ### Auxiliary definitions used by the specification statements -/

/-- Words are nonempty and free of whitespace. -/
def WordsOk (ws : List (List ℕ)) : Prop :=
  ∀ w ∈ ws, w ≠ [] ∧ ∀ c ∈ w, isSpace c = false

/-- Python truthiness of an optional dict: `None` and `{}` are falsy. -/
def dictTruthy {α : Type} (o : Option (List α)) : Bool :=
  match o with
  | none => false
  | some l => !l.isEmpty

/-- `agg[item]` as a read-only lookup (`None` when the key is absent). -/
def aggLookup (agg : List (PyStr × Agg)) (k : PyStr) : Option Agg :=
  (agg.find? (fun p => p.1 = k)).map Prod.snd

/-- The defaultdict default of the rule-path accumulator. -/
def aggDefault : Agg := { confidence := 0, lift := 0, support := 0, count := 0 }

/-- Folding one contributing rule into an accumulator entry: running max of
confidence and lift, running sum of support, increment of the rule count. -/
def applyContrib (s : Agg) (r : Rule) : Agg :=
  { confidence := max s.confidence r.confidence, lift := max s.lift r.lift,
    support := s.support + r.support, count := s.count + 1 }

/-- The specification's firing condition for a rule (spec §4.2, steps 2-4):
the normalized antecedent set is a subset of the normalized cart set, the
normalized consequents minus the normalized cart set are non-empty, and the
rule passes both thresholds. -/
def FiresSpec (cartSet : List PyStr) (minConf minLift : ℚ) (r : Rule) : Prop :=
  (∀ a ∈ r.antecedents, cleanName a ∈ cartSet) ∧
    (∃ c ∈ r.consequents, cleanName c ∉ cartSet) ∧
    minConf ≤ r.confidence ∧ minLift ≤ r.lift

/-- A rule contributes `item` (an original-cased key of the accumulator) when
it passes the firing gate and one of its new items resolves to `item`. -/
def contributes (cartSet : List PyStr) (minConf minLift : ℚ) (item : PyStr) (r : Rule) :
    Bool :=
  (antsLower r).all (fun a => cartSet.contains a) &&
    !(newItems cartSet r).isEmpty &&
    decide (minConf ≤ r.confidence) && decide (minLift ≤ r.lift) &&
    ((newItems cartSet r).map (resolveOrig r)).contains item

/-- The sublist of rules contributing to a given aggregated item. -/
def contribRules (rl : List Rule) (cartSet : List PyStr) (minConf minLift : ℚ)
    (item : PyStr) : List Rule :=
  rl.filter (contributes cartSet minConf minLift item)

/-- The per-item aggregation contract of the rule-based path (spec §4.2,
steps 6-7): confidence and lift are the maxima over the contributing rules,
support their sum, frequency their number, and the score is
`confidence*0.5 + lift*0.3 + support*0.2`, with confidence, lift and score
rounded to 3 decimals and support to 4. -/
def AggregatesFrom (cr : List Rule) (rec : Rec) : Prop :=
  cr ≠ [] ∧
  ∃ mconf mlift,
    mconf ∈ cr.map Rule.confidence ∧ (∀ x ∈ cr.map Rule.confidence, x ≤ mconf) ∧
    mlift ∈ cr.map Rule.lift ∧ (∀ x ∈ cr.map Rule.lift, x ≤ mlift) ∧
    rec.confidence = roundTo 3 mconf ∧
    rec.lift = some (roundTo 3 mlift) ∧
    rec.support = roundTo 4 ((cr.map Rule.support).sum) ∧
    rec.frequency = cr.length ∧
    rec.score = roundTo 3 (mconf * (1 / 2) + mlift * (3 / 10) +
      ((cr.map Rule.support).sum) * (1 / 5))

/-! #### Concrete fixtures used in counterexamples and witnesses -/

/-- The spec's example rule: `{bread} → {butter}`, confidence 0.8, lift 2.0,
support 0.1. -/
def ruleBB : Rule :=
  { antecedents := [pystr "bread"], consequents := [pystr "butter"],
    confidence := 8 / 10, lift := 2, support := 1 / 10 }

/-- An engine with the bread/butter rule and non-empty count tables (whose
fallback, were it consulted, would recommend jam). -/
def engBB : Engine :=
  { rules := some [ruleBB],
    item_counts := some [(pystr "bread", 5), (pystr "jam", 3)],
    pair_counts := some [((pystr "bread", pystr "jam"), 2)] }

/-- A rule whose single consequent is the one-space string, which normalizes
to the empty string. -/
def ruleWS : Rule :=
  { antecedents := [pystr "ok"], consequents := [pystr " "],
    confidence := 1 / 2, lift := 2, support := 1 / 10 }

/-- An engine holding only `ruleWS`. -/
def engWS : Engine := { rules := some [ruleWS], item_counts := none, pair_counts := none }

/-- The spec's fallback scenario: no rules, `item_counts = {milk: 10, eggs: 5}`,
`pair_counts = {(milk, eggs): 4}`. -/
def engC6 : Engine :=
  { rules := none,
    item_counts := some [(pystr "milk", 10), (pystr "eggs", 5)],
    pair_counts := some [((pystr "milk", pystr "eggs"), 4)] }

/-- Two cart items with pair entries toward the same candidate `x`, with
differing counts: the fallback denominator sums the cart items' own counts. -/
def engC8 : Engine :=
  { rules := none,
    item_counts := some [(pystr "a", 1), (pystr "b", 2), (pystr "x", 3)],
    pair_counts := some [((pystr "a", pystr "x"), 4), ((pystr "b", pystr "x"), 5)] }

/-- A rule with two antecedents `{a, b}`, used for the subset-gating examples. -/
def ruleAB : Rule :=
  { antecedents := [pystr "a", pystr "b"], consequents := [pystr "d"],
    confidence := 1 / 2, lift := 3 / 2, support := 1 / 5 }

/-! ### Facts about the normalization pipeline -/

theorem toLower_toLower (c : ℕ) : toLower (toLower c) = toLower c := by
  unfold toLower
  split
  · next h => rw [if_neg (by omega)]
  · rfl

theorem isSpace_toLower (c : ℕ) : isSpace (toLower c) = isSpace c := by
  unfold toLower
  split
  · next h =>
    have h1 : isSpace (c + 32) = false := by unfold isSpace; simp; omega
    have h2 : isSpace c = false := by unfold isSpace; simp; omega
    rw [h1, h2]
  · rfl

theorem toLower_ne_83 (c : ℕ) : toLower c ≠ 83 := by
  unfold toLower
  split <;> omega

theorem wordsAux_nil (acc : List ℕ) :
    wordsAux acc [] = if acc.isEmpty then [] else [acc.reverse] := rfl

theorem wordsAux_cons (acc : List ℕ) (c : ℕ) (cs : List ℕ) :
    wordsAux acc (c :: cs) =
      if isSpace c then
        if acc.isEmpty then wordsAux [] cs else acc.reverse :: wordsAux [] cs
      else wordsAux (c :: acc) cs := rfl

theorem wordsAux_wordsOk (l : List ℕ) :
    ∀ acc, (∀ c ∈ acc, isSpace c = false) → WordsOk (wordsAux acc l) := by
  induction l with
  | nil =>
    intro acc hacc
    unfold wordsAux
    split
    · intro w hw; simp at hw
    · next h =>
      intro w hw
      simp at hw
      subst hw
      refine ⟨by simpa [List.isEmpty_iff] using h, ?_⟩
      intro c hc
      exact hacc c (List.mem_reverse.mp hc)
  | cons c cs ih =>
    intro acc hacc
    unfold wordsAux
    by_cases hsp : isSpace c = true
    · rw [if_pos hsp]
      split
      · exact ih [] (by simp)
      · next h =>
        intro w hw
        rcases List.mem_cons.mp hw with hw | hw
        · subst hw
          exact ⟨by simpa [List.isEmpty_iff] using h,
            fun d hd => hacc d (List.mem_reverse.mp hd)⟩
        · exact ih [] (by simp) w hw
    · rw [if_neg hsp]
      refine ih (c :: acc) ?_
      intro d hd
      rcases List.mem_cons.mp hd with hd | hd
      · subst hd; exact Bool.eq_false_iff.mpr hsp
      · exact hacc d hd

theorem wordsAux_no_space (w : List ℕ) :
    ∀ acc, (∀ c ∈ w, isSpace c = false) →
      wordsAux acc w = if acc = [] ∧ w = [] then [] else [acc.reverse ++ w] := by
  induction w with
  | nil =>
    intro acc _
    unfold wordsAux
    by_cases h : acc = [] <;> simp [h]
  | cons c cs ih =>
    intro acc hw
    unfold wordsAux
    rw [if_neg (by simp [hw c (by simp)])]
    rw [ih (c :: acc) (fun d hd => hw d (List.mem_cons_of_mem c hd))]
    simp

theorem wordsAux_word_space (w : List ℕ) :
    ∀ acc rest, (∀ c ∈ w, isSpace c = false) → ¬(acc = [] ∧ w = []) →
      wordsAux acc (w ++ 32 :: rest) = (acc.reverse ++ w) :: wordsAux [] rest := by
  induction w with
  | nil =>
    intro acc rest _ hne
    have hacc : acc ≠ [] := fun h => hne ⟨h, rfl⟩
    rw [List.nil_append, wordsAux_cons, if_pos (by decide),
      if_neg (by simpa [List.isEmpty_iff] using hacc)]
    simp
  | cons c cs ih =>
    intro acc rest hw _
    rw [List.cons_append, wordsAux_cons, if_neg (by simp [hw c (by simp)])]
    rw [ih (c :: acc) rest (fun d hd => hw d (List.mem_cons_of_mem c hd)) (by simp)]
    simp

theorem words_joinWords (ws : List (List ℕ)) (hok : WordsOk ws) :
    words (joinWords ws) = ws := by
  induction ws with
  | nil => rfl
  | cons w rest ih =>
    cases rest with
    | nil =>
      show words w = [w]
      unfold words
      rw [wordsAux_no_space w [] (fun c hc => (hok w (by simp)).2 c hc)]
      rw [if_neg (by simp [(hok w (by simp)).1])]
      simp
    | cons w2 rest2 =>
      show words (w ++ 32 :: joinWords (w2 :: rest2)) = _
      unfold words
      rw [wordsAux_word_space w [] (joinWords (w2 :: rest2))
        (fun c hc => (hok w (by simp)).2 c hc) (by simp [(hok w (by simp)).1])]
      have := ih (fun u hu => hok u (List.mem_cons_of_mem w hu))
      unfold words at this
      rw [this]
      simp

theorem words_dropWhile_space (l : List ℕ) :
    words (l.dropWhile isSpace) = words l := by
  induction l with
  | nil => rfl
  | cons c cs ih =>
    by_cases h : isSpace c = true
    · rw [List.dropWhile_cons_of_pos h, ih]
      show words cs = wordsAux [] (c :: cs)
      rw [wordsAux_cons, if_pos h, if_pos (by simp)]
      rfl
    · rw [List.dropWhile_cons_of_neg (by simp [h])]

theorem wordsAux_all_space (sp : List ℕ) :
    ∀ acc, (∀ c ∈ sp, isSpace c = true) → wordsAux acc sp = wordsAux acc [] := by
  induction sp with
  | nil => intro acc _; rfl
  | cons c cs ih =>
    intro acc hsp
    rw [wordsAux_cons, if_pos (hsp c (by simp))]
    have hnil : wordsAux ([] : List ℕ) cs = [] := by
      rw [ih [] (fun d hd => hsp d (List.mem_cons_of_mem c hd))]
      rfl
    rw [hnil, wordsAux_nil]

theorem wordsAux_append_space (l : List ℕ) :
    ∀ acc sp, (∀ c ∈ sp, isSpace c = true) → wordsAux acc (l ++ sp) = wordsAux acc l := by
  induction l with
  | nil =>
    intro acc sp hsp
    simpa using wordsAux_all_space sp acc hsp
  | cons c cs ih =>
    intro acc sp hsp
    rw [List.cons_append, wordsAux_cons, wordsAux_cons]
    by_cases h : isSpace c = true
    · rw [if_pos h, if_pos h]
      split <;> rw [ih [] sp hsp]
    · rw [if_neg h, if_neg h, ih (c :: acc) sp hsp]

theorem words_pyStrip (l : List ℕ) : words (pyStrip l) = words l := by
  have hm : pyStrip l = ((l.dropWhile isSpace).reverse.dropWhile isSpace).reverse := rfl
  have hdecomp : pyStrip l ++ ((l.dropWhile isSpace).reverse.takeWhile isSpace).reverse
      = l.dropWhile isSpace := by
    rw [hm, ← List.reverse_append, List.takeWhile_append_dropWhile, List.reverse_reverse]
  have hsp : ∀ c ∈ ((l.dropWhile isSpace).reverse.takeWhile isSpace).reverse,
      isSpace c = true := by
    intro c hc
    exact List.mem_takeWhile_imp (List.mem_reverse.mp hc)
  have h1 : words (l.dropWhile isSpace) = words (pyStrip l) := by
    rw [← hdecomp]
    show wordsAux [] _ = wordsAux [] _
    rw [wordsAux_append_space _ [] _ hsp]
  rw [← h1, words_dropWhile_space]

theorem containsPat_occurrence {pat l : List ℕ} (h : containsPat pat l = true) : pat <:+: l := by
  induction l with
  | nil =>
    unfold containsPat at h
    exact (List.isPrefixOf_iff_prefix.mp h).isInfix
  | cons c cs ih =>
    unfold containsPat at h
    rcases Bool.or_eq_true_iff.mp h with h | h
    · exact (List.isPrefixOf_iff_prefix.mp h).isInfix
    · exact List.infix_cons_iff.mpr (Or.inr (ih h))

theorem containsPat_skuPat_eq_false {l : List ℕ} (h83 : ∀ a ∈ l, a ≠ 83) :
    containsPat skuPat l = false := by
  by_contra hc
  have htrue : containsPat skuPat l = true := by
    revert hc
    cases containsPat skuPat l <;> simp
  have : (83 : ℕ) ∈ l := by
    refine (containsPat_occurrence htrue).subset ?_
    decide
  exact h83 83 this rfl

theorem map_toLower_joinWords (ws : List (List ℕ)) :
    (joinWords ws).map toLower = joinWords (ws.map (List.map toLower)) := by
  induction ws with
  | nil => rfl
  | cons w rest ih =>
    cases rest with
    | nil => rfl
    | cons w2 rest2 =>
      show (w ++ 32 :: joinWords (w2 :: rest2)).map toLower = _
      rw [List.map_append, List.map_cons, ih]
      rfl

theorem wordsOk_map_toLower {ws : List (List ℕ)} (h : WordsOk ws) :
    WordsOk (ws.map (List.map toLower)) := by
  intro w hw
  rcases List.mem_map.mp hw with ⟨u, hu, rfl⟩
  refine ⟨by simpa using (h u hu).1, ?_⟩
  intro c hc
  rcases List.mem_map.mp hc with ⟨d, hd, rfl⟩
  rw [isSpace_toLower]
  exact (h u hu).2 d hd

theorem mem_pyStrip {a : ℕ} {l : List ℕ} (h : a ∈ pyStrip l) : a ∈ l := by
  unfold pyStrip at h
  have h1 := List.mem_reverse.mp h
  have h2 := (List.dropWhile_sublist _).mem h1
  have h3 := List.mem_reverse.mp h2
  exact (List.dropWhile_sublist _).mem h3

/-- Every output of `cleanName` is a fixed point of `cleanName`. -/
theorem cleanName_cleanName (s : PyStr) : cleanName (cleanName s) = cleanName s := by
  have hdef : ∀ t : PyStr, cleanName t
      = (joinWords (words (if containsPat skuPat (pyStrip t)
          then takeBefore skuPat (pyStrip t) else pyStrip t))).map toLower := fun _ => rfl
  set r := cleanName s with hr
  set ws := words (if containsPat skuPat (pyStrip s)
      then takeBefore skuPat (pyStrip s) else pyStrip s) with hws
  have hok : WordsOk ws := wordsAux_wordsOk _ [] (by simp)
  have hrw : r = joinWords (ws.map (List.map toLower)) := by
    rw [hr, hdef s, ← hws, map_toLower_joinWords]
  have h83 : ∀ a ∈ r, a ≠ 83 := by
    intro a ha
    rw [hr, hdef s] at ha
    rcases List.mem_map.mp ha with ⟨b, _, rfl⟩
    exact toLower_ne_83 b
  have h83strip : ∀ a ∈ pyStrip r, a ≠ 83 := fun a ha => h83 a (mem_pyStrip ha)
  rw [hdef r, containsPat_skuPat_eq_false h83strip]
  simp only [Bool.false_eq_true, if_false]
  rw [words_pyStrip r]
  conv_lhs => rw [hrw]
  rw [words_joinWords _ (wordsOk_map_toLower hok), ← map_toLower_joinWords, List.map_map]
  have hcomp : toLower ∘ toLower = toLower := funext toLower_toLower
  rw [hcomp, hr, hdef s, hws]

/-! ### Shape of the output: sortedness and truncation -/

theorem sortRecs_sorted (l : List Rec) : List.Pairwise recGE (sortRecs l) :=
  List.sorted_insertionSort recGE l

theorem mem_sortRecs {x : Rec} {l : List Rec} : x ∈ sortRecs l ↔ x ∈ l :=
  List.mem_insertionSort recGE

theorem ruleSection_eq_some {e : Engine} {cartSet : List PyStr} {topN : ℕ}
    {minConf minLift : ℚ} {out : List Rec}
    (h : ruleSection e cartSet topN minConf minLift = some out) :
    ∃ rl, e.rules = some rl ∧ rl ≠ [] ∧ ruleAgg rl cartSet minConf minLift ≠ [] ∧
      out = (sortRecs (buildRuleRecs (ruleAgg rl cartSet minConf minLift))).take topN := by
  unfold ruleSection at h
  split at h
  · next rl heq =>
    split at h
    · exact absurd h (by simp)
    · next hne =>
      simp only at h
      split at h
      · exact absurd h (by simp)
      · next hagg =>
        refine ⟨rl, heq, by simpa [List.isEmpty_iff] using hne, by simpa [List.isEmpty_iff] using hagg, ?_⟩
        exact (Option.some_inj.mp h).symm
  · exact absurd h (by simp)

theorem cooccurRecs_shape (e : Engine) (cartSet : List PyStr) (topN : ℕ) :
    cooccurRecs e cartSet topN = [] ∨
      ∃ l, cooccurRecs e cartSet topN = (sortRecs l).take topN := by
  unfold cooccurRecs
  split
  · split
    · exact Or.inl rfl
    · simp only
      split
      · exact Or.inl rfl
      · split
        · exact Or.inl rfl
        · exact Or.inr ⟨_, rfl⟩
  · exact Or.inl rfl

theorem get_recommendations_shape (e : Engine) (cart : List PyStr) (topN : ℕ)
    (minConf minLift : ℚ) :
    get_recommendations e cart topN minConf minLift = [] ∨
      ∃ l, get_recommendations e cart topN minConf minLift = (sortRecs l).take topN := by
  unfold get_recommendations
  split
  · exact Or.inl rfl
  · simp only
    split
    · next out hout =>
      obtain ⟨rl, _, _, _, hform⟩ := ruleSection_eq_some hout
      exact Or.inr ⟨_, hform⟩
    · exact cooccurRecs_shape e _ topN

/-- C9: Name normalization is idempotent: for every string `s`,
`_clean_name(_clean_name(s)) == _clean_name(s)` — applying the
trim / SKU-strip / whitespace-collapse / lowercase pipeline to an
already-normalized name returns it unchanged. -/
theorem claim_C9_cleanName_idempotent (s : PyStr) :
    cleanName (cleanName s) = cleanName s :=
  cleanName_cleanName s

/-- C2: For every input to `get_recommendations`, the returned list has length
at most `top_n` and is sorted in non-increasing order of the `score` field
(on both the rule-based and the co-occurrence path). -/
theorem claim_C2_topN_and_sorted (e : Engine) (cart : List PyStr) (topN : ℕ)
    (minConf minLift : ℚ) :
    (get_recommendations e cart topN minConf minLift).length ≤ topN ∧
      (get_recommendations e cart topN minConf minLift).Pairwise
        (fun a b => b.score ≤ a.score) := by
  obtain h | ⟨l, h⟩ := get_recommendations_shape e cart topN minConf minLift <;> rw [h]
  · exact ⟨Nat.zero_le topN, List.Pairwise.nil⟩
  · exact ⟨List.length_take_le topN _,
      ((sortRecs_sorted l).sublist (List.take_sublist topN _) : _)⟩

/-! ### The co-occurrence guard (C7) -/

theorem cooccurRecs_eq_nil_of_missing (e : Engine) (cartSet : List PyStr) (topN : ℕ)
    (h : ¬(dictTruthy e.item_counts = true ∧ dictTruthy e.pair_counts = true)) :
    cooccurRecs e cartSet topN = [] := by
  unfold cooccurRecs
  split
  · next ic pc hic hpc =>
    rw [if_pos]
    rw [Decidable.not_and_iff_or_not] at h
    rcases h with h | h <;> rw [hic] at * <;> rw [hpc] at * <;>
      simp [dictTruthy] at h ⊢ <;> simp [h]
  · rfl

/-- C7: Whenever the rule-based path yields no aggregated items (it falls
through, `ruleSection = none`), the co-occurrence fallback produces output only
if both count mappings are present and non-empty; if either is absent (`None`)
or empty, `get_recommendations` returns the empty list (and never raises). -/
theorem claim_C7_fallback_requires_counts (e : Engine) (cart : List PyStr) (topN : ℕ)
    (minConf minLift : ℚ)
    (hrule : ruleSection e (cleanCart cart) topN minConf minLift = none)
    (hmiss : ¬(dictTruthy e.item_counts = true ∧ dictTruthy e.pair_counts = true)) :
    get_recommendations e cart topN minConf minLift = [] := by
  unfold get_recommendations
  split
  · rfl
  · simp only
    rw [hrule]
    exact cooccurRecs_eq_nil_of_missing e _ topN hmiss

/-- Witness for C7 at a concrete input: no rules, `item_counts` present but
empty, `pair_counts` absent. -/
theorem claim_C7_fallback_requires_counts_witness :
    get_recommendations ⟨none, some [], none⟩ [pystr "milk"] 5 (3 / 10) 1 = [] := by
  apply claim_C7_fallback_requires_counts
  · rfl
  · simp [dictTruthy]

/-! ### Invariants of the rule-path accumulator -/

theorem updateAgg_nil (conf lft sup : ℚ) (k : PyStr) :
    updateAgg conf lft sup [] k =
      [(k, { confidence := max 0 conf, lift := max 0 lft,
             support := 0 + sup, count := 0 + 1 })] := rfl

theorem updateAgg_cons (conf lft sup : ℚ) (k k2 : PyStr) (a : Agg) (rest : List (PyStr × Agg)) :
    updateAgg conf lft sup ((k2, a) :: rest) k =
      if k2 = k then
        (k2, { confidence := max a.confidence conf, lift := max a.lift lft,
               support := a.support + sup, count := a.count + 1 }) :: rest
      else (k2, a) :: updateAgg conf lft sup rest k := rfl

theorem mem_updateAgg_key {Q : PyStr → Prop} (conf lft sup : ℚ) (k : PyStr) :
    ∀ agg, (∀ p ∈ agg, Q p.1) → Q k → ∀ p ∈ updateAgg conf lft sup agg k, Q p.1 := by
  intro agg
  induction agg with
  | nil =>
    intro _ hk p hp
    rw [updateAgg_nil] at hp
    rcases List.mem_singleton.mp hp with rfl
    exact hk
  | cons hd rest ih =>
    obtain ⟨k2, a⟩ := hd
    intro hagg hk p hp
    rw [updateAgg_cons] at hp
    split at hp
    · rcases List.mem_cons.mp hp with rfl | hp
      · exact hagg (k2, a) (by simp)
      · exact hagg p (List.mem_cons_of_mem _ hp)
    · rcases List.mem_cons.mp hp with rfl | hp
      · exact hagg (k2, a) (by simp)
      · exact ih (fun q hq => hagg q (List.mem_cons_of_mem _ hq)) hk p hp

theorem mem_updateAgg_count (conf lft sup : ℚ) (k : PyStr) :
    ∀ agg, (∀ p ∈ agg, 1 ≤ p.2.count) →
      ∀ p ∈ updateAgg conf lft sup agg k, 1 ≤ p.2.count := by
  intro agg
  induction agg with
  | nil =>
    intro _ p hp
    rw [updateAgg_nil] at hp
    rcases List.mem_singleton.mp hp with rfl
    simp
  | cons hd rest ih =>
    obtain ⟨k2, a⟩ := hd
    intro hagg p hp
    rw [updateAgg_cons] at hp
    split at hp
    · rcases List.mem_cons.mp hp with rfl | hp
      · simp
      · exact hagg p (List.mem_cons_of_mem _ hp)
    · rcases List.mem_cons.mp hp with rfl | hp
      · exact hagg (k2, a) (by simp)
      · exact ih (fun q hq => hagg q (List.mem_cons_of_mem _ hq)) p hp

theorem foldl_updateAgg_key {Q : PyStr → Prop} (conf lft sup : ℚ) (g : PyStr → PyStr) :
    ∀ (l : List PyStr) agg, (∀ p ∈ agg, Q p.1) → (∀ il ∈ l, Q (g il)) →
      ∀ p ∈ l.foldl (fun ag il => updateAgg conf lft sup ag (g il)) agg, Q p.1 := by
  intro l
  induction l with
  | nil => intro agg hagg _ p hp; exact hagg p hp
  | cons il rest ih =>
    intro agg hagg hl p hp
    rw [List.foldl_cons] at hp
    refine ih _ ?_ (fun j hj => hl j (List.mem_cons_of_mem _ hj)) p hp
    exact mem_updateAgg_key conf lft sup (g il) agg hagg (hl il (by simp))

theorem foldl_updateAgg_count (conf lft sup : ℚ) (g : PyStr → PyStr) :
    ∀ (l : List PyStr) agg, (∀ p ∈ agg, 1 ≤ p.2.count) →
      ∀ p ∈ l.foldl (fun ag il => updateAgg conf lft sup ag (g il)) agg, 1 ≤ p.2.count := by
  intro l
  induction l with
  | nil => intro agg hagg p hp; exact hagg p hp
  | cons il rest ih =>
    intro agg hagg p hp
    rw [List.foldl_cons] at hp
    exact ih _ (mem_updateAgg_count conf lft sup (g il) agg hagg) p hp

theorem mem_processRule_key {Q : PyStr → Prop} (cartSet : List PyStr) (minConf minLift : ℚ)
    (agg : List (PyStr × Agg)) (r : Rule) (hagg : ∀ p ∈ agg, Q p.1)
    (hnew : ∀ il ∈ newItems cartSet r, Q (resolveOrig r il)) :
    ∀ p ∈ processRule cartSet minConf minLift agg r, Q p.1 := by
  unfold processRule
  split
  · simp only
    split
    · exact foldl_updateAgg_key _ _ _ _ (newItems cartSet r) agg hagg hnew
    · exact hagg
  · exact hagg

theorem mem_processRule_count (cartSet : List PyStr) (minConf minLift : ℚ)
    (agg : List (PyStr × Agg)) (r : Rule) (hagg : ∀ p ∈ agg, 1 ≤ p.2.count) :
    ∀ p ∈ processRule cartSet minConf minLift agg r, 1 ≤ p.2.count := by
  unfold processRule
  split
  · simp only
    split
    · exact foldl_updateAgg_count _ _ _ _ (newItems cartSet r) agg hagg
    · exact hagg
  · exact hagg

theorem mem_ruleAgg_key {Q : PyStr → Prop} (rl : List Rule) (cartSet : List PyStr)
    (minConf minLift : ℚ)
    (hnew : ∀ r ∈ rl, ∀ il ∈ newItems cartSet r, Q (resolveOrig r il)) :
    ∀ p ∈ ruleAgg rl cartSet minConf minLift, Q p.1 := by
  suffices h : ∀ (l : List Rule) agg, (∀ p ∈ agg, Q p.1) →
      (∀ r ∈ l, ∀ il ∈ newItems cartSet r, Q (resolveOrig r il)) →
      ∀ p ∈ l.foldl (processRule cartSet minConf minLift) agg, Q p.1 by
    exact h rl [] (by simp) hnew
  intro l
  induction l with
  | nil => intro agg hagg _ p hp; exact hagg p hp
  | cons r rest ih =>
    intro agg hagg hl p hp
    rw [List.foldl_cons] at hp
    refine ih _ ?_ (fun j hj => hl j (List.mem_cons_of_mem _ hj)) p hp
    exact mem_processRule_key cartSet minConf minLift agg r hagg (hl r (by simp))

theorem mem_ruleAgg_count (rl : List Rule) (cartSet : List PyStr) (minConf minLift : ℚ) :
    ∀ p ∈ ruleAgg rl cartSet minConf minLift, 1 ≤ p.2.count := by
  suffices h : ∀ (l : List Rule) agg, (∀ p ∈ agg, 1 ≤ p.2.count) →
      ∀ p ∈ l.foldl (processRule cartSet minConf minLift) agg, 1 ≤ p.2.count by
    exact h rl [] (by simp)
  intro l
  induction l with
  | nil => intro agg hagg p hp; exact hagg p hp
  | cons r rest ih =>
    intro agg hagg p hp
    rw [List.foldl_cons] at hp
    exact ih _ (mem_processRule_count cartSet minConf minLift agg r hagg) p hp

theorem contains_eq_true_iff {l : List PyStr} {a : PyStr} : l.contains a = true ↔ a ∈ l := by
  simp

/-- Resolving a cleaned new item back to an original consequent does not change
its cleaned form. -/
theorem cleanName_resolveOrig {r : Rule} {il : PyStr} (h : il ∈ consLower r) :
    cleanName (resolveOrig r il) = il := by
  unfold resolveOrig
  cases hfind : r.consequents.find? (fun orig => cleanName orig = il) with
  | some orig =>
    have := List.find?_some hfind
    simpa using this
  | none =>
    rcases List.mem_map.mp (List.mem_dedup.mp h) with ⟨c, _, rfl⟩
    simpa using cleanName_cleanName c

/-! ### Invariants of the fallback score table -/

theorem updScore_nil (pv dv : ℕ) (k : PyStr) :
    updScore pv dv [] k = [(k, { pair := 0 + pv, den := 0 + dv })] := rfl

theorem updScore_cons (pv dv : ℕ) (k k2 : PyStr) (s : CoScore) (rest : List (PyStr × CoScore)) :
    updScore pv dv ((k2, s) :: rest) k =
      if k2 = k then (k2, { pair := s.pair + pv, den := s.den + dv }) :: rest
      else (k2, s) :: updScore pv dv rest k := rfl

theorem mem_updScore_key {Q : PyStr → Prop} (pv dv : ℕ) (k : PyStr) :
    ∀ sc, (∀ p ∈ sc, Q p.1) → Q k → ∀ p ∈ updScore pv dv sc k, Q p.1 := by
  intro sc
  induction sc with
  | nil =>
    intro _ hk p hp
    rw [updScore_nil] at hp
    rcases List.mem_singleton.mp hp with rfl
    exact hk
  | cons hd rest ih =>
    obtain ⟨k2, s⟩ := hd
    intro hsc hk p hp
    rw [updScore_cons] at hp
    split at hp
    · rcases List.mem_cons.mp hp with rfl | hp
      · exact hsc (k2, s) (by simp)
      · exact hsc p (List.mem_cons_of_mem _ hp)
    · rcases List.mem_cons.mp hp with rfl | hp
      · exact hsc (k2, s) (by simp)
      · exact ih (fun q hq => hsc q (List.mem_cons_of_mem _ hq)) hk p hp

theorem mem_coStep_key (cartSet : List PyStr) (cOrig : PyStr) (cCount : ℕ)
    (sc : List (PyStr × CoScore)) (entry : (PyStr × PyStr) × ℕ)
    (h : ∀ p ∈ sc, cleanName p.1 ∉ cartSet) :
    ∀ p ∈ coStep cartSet cOrig cCount sc entry, cleanName p.1 ∉ cartSet := by
  unfold coStep
  simp only
  by_cases hab : entry.1.1 = cOrig ∨ entry.1.2 = cOrig
  · rw [if_pos hab]
    by_cases hcont :
        cartSet.contains (cleanName (if entry.1.1 = cOrig then entry.1.2 else entry.1.1)) = true
    · rw [if_pos hcont]
      exact h
    · rw [if_neg hcont]
      refine mem_updScore_key (Q := fun k => cleanName k ∉ cartSet) _ _ _ sc h ?_
      intro hmem
      exact hcont (contains_eq_true_iff.mpr hmem)
  · rw [if_neg hab]
    exact h

theorem mem_coScores_key (ic : List (PyStr × ℕ)) (pc : List ((PyStr × PyStr) × ℕ))
    (cartSet cartKnown : List PyStr) :
    ∀ p ∈ coScores ic pc cartSet cartKnown, cleanName p.1 ∉ cartSet := by
  suffices h : ∀ (l : List PyStr) sc, (∀ p ∈ sc, cleanName p.1 ∉ cartSet) →
      ∀ p ∈ l.foldl (fun sc c =>
        match nameMapLookup ic c with
        | none => sc
        | some cOrig =>
          let cCount := icGet ic cOrig
          if cCount = 0 then sc
          else pc.foldl (coStep cartSet cOrig cCount) sc) sc, cleanName p.1 ∉ cartSet by
    exact h cartKnown [] (by simp)
  intro l
  induction l with
  | nil => intro sc hsc p hp; exact hsc p hp
  | cons c rest ih =>
    intro sc hsc p hp
    rw [List.foldl_cons] at hp
    refine ih _ ?_ p hp
    cases hlook : nameMapLookup ic c with
    | none => simpa [hlook] using hsc
    | some cOrig =>
      simp only [hlook]
      split
      · exact hsc
      · suffices hfold : ∀ (entries : List ((PyStr × PyStr) × ℕ)) sc2,
            (∀ q ∈ sc2, cleanName q.1 ∉ cartSet) →
            ∀ q ∈ entries.foldl (coStep cartSet cOrig (icGet ic cOrig)) sc2,
              cleanName q.1 ∉ cartSet by
          exact hfold pc sc hsc
        intro entries
        induction entries with
        | nil => intro sc2 hsc2 q hq; exact hsc2 q hq
        | cons en rest2 ih2 =>
          intro sc2 hsc2 q hq
          rw [List.foldl_cons] at hq
          exact ih2 _ (mem_coStep_key cartSet cOrig _ sc2 en hsc2) q hq

theorem mem_cooccurRecs_fields (e : Engine) (cartSet : List PyStr) (topN : ℕ) :
    ∀ r ∈ cooccurRecs e cartSet topN, r.source = Source.cooccurrence ∧ r.lift = none := by
  unfold cooccurRecs
  split
  · split
    · intro r hr; simp at hr
    · simp only
      split
      · intro r hr; simp at hr
      · split
        · intro r hr; simp at hr
        · intro r hr
          have h1 : r ∈ sortRecs (buildCoRecs _ _) := List.take_subset _ _ hr
          have h2 := mem_sortRecs.mp h1
          rcases List.mem_map.mp h2 with ⟨p, _, rfl⟩
          exact ⟨rfl, rfl⟩
  · intro r hr; simp at hr

/-- C10: Every non-empty result list is homogeneous in origin: either every
record has source `"rules"`, a numeric (non-`None`) lift, and frequency at
least 1, or every record has source `"cooccurrence"` and lift `None`; the two
sources never mix in one returned list. -/
theorem claim_C10_source_homogeneous (e : Engine) (cart : List PyStr) (topN : ℕ)
    (minConf minLift : ℚ) :
    (∀ r ∈ get_recommendations e cart topN minConf minLift,
        r.source = Source.rules ∧ (∃ q, r.lift = some q) ∧ 1 ≤ r.frequency) ∨
    (∀ r ∈ get_recommendations e cart topN minConf minLift,
        r.source = Source.cooccurrence ∧ r.lift = none) := by
  unfold get_recommendations
  split
  · left; intro r hr; simp at hr
  · simp only
    split
    · next out hout =>
      left
      obtain ⟨rl, _, _, _, hform⟩ := ruleSection_eq_some hout
      intro r hr
      rw [hform] at hr
      have h1 := mem_sortRecs.mp (List.take_subset _ _ hr)
      rcases List.mem_map.mp h1 with ⟨p, hp, rfl⟩
      exact ⟨rfl, ⟨_, rfl⟩, mem_ruleAgg_count rl _ minConf minLift p hp⟩
    · right
      exact mem_cooccurRecs_fields e _ topN

/-! ### Concrete engine evaluations -/

set_option maxHeartbeats 1000000 in
theorem eval_engWS :
    get_recommendations engWS [pystr "ok", pystr " "] 5 (3 / 10) 1 =
      [{ product := pystr " ", confidence := 1 / 2, lift := some 2, support := 1 / 10,
         score := 87 / 100, frequency := 1, source := Source.rules }] := by
  simp [get_recommendations, engWS, ruleWS, ruleSection, ruleAgg, processRule, updateAgg,
    antsLower, consLower, newItems, resolveOrig, buildRuleRecs, ruleRecOf, sortRecs,
    cleanCart, cleanName, pyStrip, words, wordsAux, joinWords, containsPat, takeBefore,
    skuPat, isSpace, toLower, pystr, List.insertionSort, List.orderedInsert, List.dedup,
    List.find?, List.foldl]
  norm_num [ruleRecOf, roundTo, round_eq, Rec.mk.injEq]

set_option maxHeartbeats 1000000 in
theorem eval_engBB :
    get_recommendations engBB [pystr "Bread (SKU: 001)"] 5 (3 / 10) 1 =
      [{ product := pystr "butter", confidence := 4 / 5, lift := some 2, support := 1 / 10,
         score := 51 / 50, frequency := 1, source := Source.rules }] := by
  simp [get_recommendations, engBB, ruleBB, ruleSection, ruleAgg, processRule, updateAgg,
    antsLower, consLower, newItems, resolveOrig, buildRuleRecs, ruleRecOf, sortRecs,
    cleanCart, cleanName, pyStrip, words, wordsAux, joinWords, containsPat, takeBefore,
    skuPat, isSpace, toLower, pystr, List.insertionSort, List.orderedInsert, List.dedup,
    List.find?, List.foldl]
  norm_num [ruleRecOf, roundTo, round_eq, Rec.mk.injEq]

/-! ### No self-recommendation (C3) -/

theorem mem_cooccurRecs_product (e : Engine) (cartSet : List PyStr) (topN : ℕ) :
    ∀ r ∈ cooccurRecs e cartSet topN, cleanName r.product ∉ cartSet := by
  unfold cooccurRecs
  split
  · split
    · intro r hr; simp at hr
    · simp only
      split
      · intro r hr; simp at hr
      · split
        · intro r hr; simp at hr
        · intro r hr
          have h1 := mem_sortRecs.mp (List.take_subset _ _ hr)
          rcases List.mem_map.mp h1 with ⟨p, hp, rfl⟩
          exact mem_coScores_key _ _ _ _ p hp
  · intro r hr; simp at hr

/-- C3, counterexample to the claim as stated: for the cart
`["ok", " "]` (the second entry is a single space, which the normalizer maps
to the empty string and the cart filter drops) and a rule recommending the
one-space string, the returned record's product normalizes to the same string
as the cart item `" "` — so an output product CAN share its normalized form
with a (blank) cart item. -/
theorem claim_C3_counterexample :
    ∃ r ∈ get_recommendations engWS [pystr "ok", pystr " "] 5 (3 / 10) 1,
      ∃ c ∈ [pystr "ok", pystr " "], cleanName r.product = cleanName c := by
  refine ⟨_, by rw [eval_engWS]; exact List.mem_singleton.mpr rfl, pystr " ", by simp, rfl⟩

/-- C3, amended: no record in the returned list has a product whose normalized
form equals the normalized form of any *retained* cart item (one that is a
non-blank string and so survives the cart filter), i.e. no output product
normalizes into the normalized cart set, on either path. Blank cart entries
are dropped before the comparison, which is what the counterexample exploits. -/
theorem claim_C3_no_self_recommendation (e : Engine) (cart : List PyStr) (topN : ℕ)
    (minConf minLift : ℚ) :
    ∀ r ∈ get_recommendations e cart topN minConf minLift,
      cleanName r.product ∉ cleanCart cart := by
  unfold get_recommendations
  split
  · intro r hr; simp at hr
  · simp only
    split
    · next out hout =>
      obtain ⟨rl, _, _, _, hform⟩ := ruleSection_eq_some hout
      intro r hr
      rw [hform] at hr
      have h1 := mem_sortRecs.mp (List.take_subset _ _ hr)
      rcases List.mem_map.mp h1 with ⟨p, hp, rfl⟩
      refine mem_ruleAgg_key (Q := fun k => cleanName k ∉ cleanCart cart) rl _ minConf minLift
        ?_ p hp
      intro r2 _ il hil
      have hmem := List.mem_filter.mp hil
      rw [cleanName_resolveOrig hmem.1]
      intro hin
      have h2 : il ∈ consLower r2 ∧ il ∉ cleanCart cart := by simpa using hmem
      exact h2.2 hin
    · exact mem_cooccurRecs_product e _ topN

/-- Witness for the amended C3 at a concrete input: the recommended record of
the bread/butter engine has a product whose normalized form is not in the
normalized cart set. -/
theorem claim_C3_no_self_recommendation_witness :
    cleanName (pystr "butter") ∉ cleanCart [pystr "Bread (SKU: 001)"] := by
  have h := claim_C3_no_self_recommendation engBB [pystr "Bread (SKU: 001)"] 5 (3 / 10) 1
    { product := pystr "butter", confidence := 4 / 5, lift := some 2, support := 1 / 10,
      score := 51 / 50, frequency := 1, source := Source.rules }
    (by rw [eval_engBB]; exact List.mem_singleton.mpr rfl)
  simpa using h

/-! ### Rule gating (C4) -/

theorem totalCount_updateAgg (conf lft sup : ℚ) (k : PyStr) :
    ∀ agg, ((updateAgg conf lft sup agg k).map (fun p => p.2.count)).sum =
      ((agg.map (fun p => p.2.count)).sum) + 1 := by
  intro agg
  induction agg with
  | nil => simp [updateAgg_nil]
  | cons hd rest ih =>
    obtain ⟨k2, a⟩ := hd
    rw [updateAgg_cons]
    split
    · simp [Nat.add_assoc, Nat.add_comm, Nat.add_left_comm]
    · simp only [List.map_cons, List.sum_cons, ih]
      omega

theorem totalCount_foldl_updateAgg (conf lft sup : ℚ) (g : PyStr → PyStr) :
    ∀ (l : List PyStr) agg,
      (((l.foldl (fun ag il => updateAgg conf lft sup ag (g il)) agg).map
          (fun p => p.2.count)).sum) =
        ((agg.map (fun p => p.2.count)).sum) + l.length := by
  intro l
  induction l with
  | nil => intro agg; simp
  | cons il rest ih =>
    intro agg
    rw [List.foldl_cons, ih, totalCount_updateAgg]
    simp [Nat.add_assoc, Nat.add_comm 1]

theorem fires_gate_iff (cartSet : List PyStr) (mc ml : ℚ) (r : Rule) :
    ((antsLower r).all (fun a => cartSet.contains a) = true ∧
      (¬(newItems cartSet r).isEmpty = true ∧ mc ≤ r.confidence ∧ ml ≤ r.lift)) ↔
    FiresSpec cartSet mc ml r := by
  unfold FiresSpec
  constructor
  · rintro ⟨h1, h2, h3, h4⟩
    refine ⟨?_, ?_, h3, h4⟩
    · intro a ha
      have hmem : cleanName a ∈ antsLower r := List.mem_map.mpr ⟨a, ha, rfl⟩
      have := List.all_eq_true.mp h1 (cleanName a) hmem
      exact contains_eq_true_iff.mp (by simpa using this)
    · have hne : newItems cartSet r ≠ [] := by simpa [List.isEmpty_iff] using h2
      obtain ⟨il, hil⟩ := List.exists_mem_of_ne_nil _ hne
      have hm := List.mem_filter.mp hil
      rcases List.mem_map.mp (List.mem_dedup.mp hm.1) with ⟨c, hc, rfl⟩
      refine ⟨c, hc, ?_⟩
      intro hin
      have hm2 : cleanName c ∈ consLower r ∧ cleanName c ∉ cartSet := by simpa using hm
      exact hm2.2 hin
  · rintro ⟨h1, ⟨c, hc, hcn⟩, h3, h4⟩
    refine ⟨?_, ?_, h3, h4⟩
    · refine List.all_eq_true.mpr ?_
      intro x hx
      rcases List.mem_map.mp hx with ⟨a, ha, rfl⟩
      simpa using contains_eq_true_iff.mpr (h1 a ha)
    · have hin : cleanName c ∈ newItems cartSet r := by
        refine List.mem_filter.mpr ⟨List.mem_dedup.mpr (List.mem_map.mpr ⟨c, hc, rfl⟩), ?_⟩
        simp only [Bool.not_eq_true']
        exact Bool.eq_false_iff.mpr (fun h => hcn (contains_eq_true_iff.mp h))
      simp [List.isEmpty_iff]
      exact List.ne_nil_of_mem hin

theorem processRule_ne_iff (cartSet : List PyStr) (minConf minLift : ℚ)
    (agg : List (PyStr × Agg)) (r : Rule) :
    processRule cartSet minConf minLift agg r ≠ agg ↔
      FiresSpec cartSet minConf minLift r := by
  constructor
  · intro hne
    by_contra hnf
    apply hne
    unfold processRule
    by_cases h1 : (antsLower r).all (fun a => cartSet.contains a) = true
    · rw [if_pos h1]
      simp only
      rw [if_neg]
      intro hin
      exact hnf ((fires_gate_iff cartSet minConf minLift r).mp ⟨h1, hin⟩)
    · rw [if_neg h1]
  · intro hf heq
    obtain ⟨h1, h2⟩ := (fires_gate_iff cartSet minConf minLift r).mpr hf
    have hexp : processRule cartSet minConf minLift agg r =
        (newItems cartSet r).foldl
          (fun ag il => updateAgg r.confidence r.lift r.support ag (resolveOrig r il)) agg := by
      unfold processRule
      rw [if_pos h1]
      simp only
      rw [if_pos h2]
    rw [hexp] at heq
    have hsum := congrArg (fun ag => ((ag.map (fun p : PyStr × Agg => p.2.count)).sum)) heq
    simp only at hsum
    rw [totalCount_foldl_updateAgg] at hsum
    have hlen : (newItems cartSet r).length ≠ 0 := by
      have : newItems cartSet r ≠ [] := by simpa [List.isEmpty_iff] using h2.1
      simpa [List.length_eq_zero] using this
    omega

/-- C4: A rule contributes to the rule-based aggregation (i.e. processing it
changes the accumulator) if and only if its normalized antecedent set is a
subset of the normalized cart set, its normalized consequents minus the
normalized cart set are non-empty, its confidence is at least `min_confidence`
and its lift is at least `min_lift`; in particular the rule with antecedents
`{"a","b"}` never fires for the cart `{"a"}` (for any thresholds and any
accumulator) but fires for the cart `{"a","b","c"}` under the default
thresholds. -/
theorem claim_C4_rule_gating :
    (∀ (cartSet : List PyStr) (minConf minLift : ℚ) (agg : List (PyStr × Agg)) (r : Rule),
        processRule cartSet minConf minLift agg r ≠ agg ↔
          FiresSpec cartSet minConf minLift r) ∧
    (∀ (minConf minLift : ℚ) (agg : List (PyStr × Agg)),
        processRule (cleanCart [pystr "a"]) minConf minLift agg ruleAB = agg) ∧
    processRule (cleanCart [pystr "a", pystr "b", pystr "c"]) (3 / 10) 1 [] ruleAB ≠ [] := by
  refine ⟨processRule_ne_iff, ?_, ?_⟩
  · intro minConf minLift agg
    by_contra hne
    rcases (processRule_ne_iff _ _ _ _ _).mp hne with ⟨hsub, _⟩
    have hb := hsub (pystr "b") (by decide)
    revert hb
    decide
  · refine (processRule_ne_iff _ _ _ _ _).mpr ⟨?_, ?_, by norm_num [ruleAB], by norm_num [ruleAB]⟩
    · decide
    · exact ⟨pystr "d", by decide, by decide⟩

/-! ### Rule priority (C1) -/

theorem ruleSection_some_of_agg_ne {rl : List Rule} (e : Engine) (cartSet : List PyStr)
    (topN : ℕ) (minConf minLift : ℚ) (hrl : e.rules = some rl) (hne : rl ≠ [])
    (hagg : ruleAgg rl cartSet minConf minLift ≠ []) :
    ruleSection e cartSet topN minConf minLift =
      some ((sortRecs (buildRuleRecs (ruleAgg rl cartSet minConf minLift))).take topN) := by
  unfold ruleSection
  rw [hrl]
  show (if rl.isEmpty = true then none
      else
        if (ruleAgg rl cartSet minConf minLift).isEmpty = true then none
        else some ((sortRecs (buildRuleRecs (ruleAgg rl cartSet minConf minLift))).take topN))
    = _
  rw [if_neg (by simpa [List.isEmpty_iff] using hne),
    if_neg (by simpa [List.isEmpty_iff] using hagg)]

/-- C1: If the rule-based path aggregates at least one item, then
`get_recommendations` returns exactly the rule-based list (sorted, truncated
to `top_n`), and the co-occurrence tables contribute nothing: replacing them
by anything else leaves the result unchanged — even when the rule-based list
is shorter than `top_n`. -/
theorem claim_C1_rule_priority (e : Engine) (cart : List PyStr) (topN : ℕ)
    (minConf minLift : ℚ) (rl : List Rule)
    (hcart : cart ≠ []) (hrl : e.rules = some rl) (hne : rl ≠ [])
    (hagg : ruleAgg rl (cleanCart cart) minConf minLift ≠ []) :
    get_recommendations e cart topN minConf minLift =
      (sortRecs (buildRuleRecs (ruleAgg rl (cleanCart cart) minConf minLift))).take topN ∧
    ∀ ic pc, get_recommendations ⟨some rl, ic, pc⟩ cart topN minConf minLift =
      get_recommendations e cart topN minConf minLift := by
  have h1 : ∀ e2 : Engine, e2.rules = some rl →
      get_recommendations e2 cart topN minConf minLift =
        (sortRecs (buildRuleRecs (ruleAgg rl (cleanCart cart) minConf minLift))).take topN := by
    intro e2 hrl2
    unfold get_recommendations
    rw [if_neg (by simpa [List.isEmpty_iff] using hcart)]
    simp only
    rw [ruleSection_some_of_agg_ne e2 _ topN minConf minLift hrl2 hne hagg]
  refine ⟨h1 e hrl, ?_⟩
  intro ic pc
  rw [h1 e hrl, h1 ⟨some rl, ic, pc⟩ rfl]

set_option maxHeartbeats 1000000 in
theorem eval_aggBB :
    ruleAgg [ruleBB] (cleanCart [pystr "Bread (SKU: 001)"]) (3 / 10) 1 =
      [(pystr "butter",
        { confidence := 8 / 10, lift := 2, support := 0 + 1 / 10, count := 1 })] := by
  simp [ruleAgg, ruleBB, processRule, updateAgg, antsLower, consLower, newItems, resolveOrig,
    cleanCart, cleanName, pyStrip, words, wordsAux, joinWords, containsPat, takeBefore,
    skuPat, isSpace, toLower, pystr, List.dedup, List.find?, List.foldl]
  norm_num [Agg.mk.injEq]

/-- Witness for C1 at a concrete input: the bread/butter engine (whose count
tables are non-empty and would, on their own, recommend jam) with `top_n = 3`,
larger than the single rule-based record. -/
theorem claim_C1_rule_priority_witness :
    get_recommendations engBB [pystr "Bread (SKU: 001)"] 3 (3 / 10) 1 =
      (sortRecs (buildRuleRecs
        (ruleAgg [ruleBB] (cleanCart [pystr "Bread (SKU: 001)"]) (3 / 10) 1))).take 3 ∧
    ∀ ic pc, get_recommendations ⟨some [ruleBB], ic, pc⟩ [pystr "Bread (SKU: 001)"] 3 (3 / 10) 1 =
      get_recommendations engBB [pystr "Bread (SKU: 001)"] 3 (3 / 10) 1 :=
  claim_C1_rule_priority engBB [pystr "Bread (SKU: 001)"] 3 (3 / 10) 1 [ruleBB]
    (by simp) rfl (by simp) (by rw [eval_aggBB]; simp)

/-! ### The rule-path accumulator as a map (C5) -/

theorem aggLookup_nil (k : PyStr) : aggLookup [] k = none := rfl

theorem aggLookup_cons (k2 : PyStr) (a : Agg) (rest : List (PyStr × Agg)) (k : PyStr) :
    aggLookup ((k2, a) :: rest) k = if k2 = k then some a else aggLookup rest k := by
  unfold aggLookup
  by_cases h : k2 = k <;> simp [List.find?_cons, h]

theorem aggLookup_updateAgg_self (conf lft sup : ℚ) (k : PyStr) :
    ∀ agg, aggLookup (updateAgg conf lft sup agg k) k =
      some { confidence := max ((aggLookup agg k).getD aggDefault).confidence conf,
             lift := max ((aggLookup agg k).getD aggDefault).lift lft,
             support := ((aggLookup agg k).getD aggDefault).support + sup,
             count := ((aggLookup agg k).getD aggDefault).count + 1 } := by
  intro agg
  induction agg with
  | nil => simp [updateAgg_nil, aggLookup_nil, aggLookup_cons, aggDefault]
  | cons hd rest ih =>
    obtain ⟨k2, a⟩ := hd
    rw [updateAgg_cons]
    by_cases h : k2 = k
    · rw [if_pos h, aggLookup_cons, if_pos h, aggLookup_cons, if_pos h]
      simp
    · rw [if_neg h, aggLookup_cons, if_neg h, aggLookup_cons, if_neg h, ih]

theorem aggLookup_updateAgg_other (conf lft sup : ℚ) {k k2 : PyStr} (hne : k ≠ k2) :
    ∀ agg, aggLookup (updateAgg conf lft sup agg k) k2 = aggLookup agg k2 := by
  intro agg
  induction agg with
  | nil => simp [updateAgg_nil, aggLookup_nil, aggLookup_cons, hne]
  | cons hd rest ih =>
    obtain ⟨k3, a⟩ := hd
    rw [updateAgg_cons]
    by_cases h : k3 = k
    · rw [if_pos h, aggLookup_cons, aggLookup_cons]
      subst h
      rw [if_neg hne, if_neg hne]
    · rw [if_neg h, aggLookup_cons, aggLookup_cons, ih]

theorem aggLookup_foldl_no_touch (conf lft sup : ℚ) (g : PyStr → PyStr) (item : PyStr) :
    ∀ (l : List PyStr) agg, (∀ il ∈ l, g il ≠ item) →
      aggLookup (l.foldl (fun ag il => updateAgg conf lft sup ag (g il)) agg) item =
        aggLookup agg item := by
  intro l
  induction l with
  | nil => intro agg _; rfl
  | cons il rest ih =>
    intro agg hl
    rw [List.foldl_cons, ih _ (fun j hj => hl j (List.mem_cons_of_mem _ hj)),
      aggLookup_updateAgg_other conf lft sup (hl il (by simp)) agg]

theorem mem_consLower_of_mem_newItems {cartSet : List PyStr} {r : Rule} {il : PyStr}
    (h : il ∈ newItems cartSet r) : il ∈ consLower r :=
  (List.mem_filter.mp h).1

theorem resolveOrig_inj {r : Rule} {il il2 : PyStr} (h : il ∈ consLower r)
    (h2 : il2 ∈ consLower r) (he : resolveOrig r il = resolveOrig r il2) : il = il2 := by
  rw [← cleanName_resolveOrig h, ← cleanName_resolveOrig h2, he]

theorem contributes_iff (cartSet : List PyStr) (minConf minLift : ℚ) (item : PyStr) (r : Rule) :
    contributes cartSet minConf minLift item r = true ↔
      (((antsLower r).all (fun a => cartSet.contains a) = true ∧
        (¬(newItems cartSet r).isEmpty = true ∧ minConf ≤ r.confidence ∧ minLift ≤ r.lift)) ∧
       item ∈ (newItems cartSet r).map (resolveOrig r)) := by
  unfold contributes
  simp only [Bool.and_eq_true, decide_eq_true_eq, Bool.not_eq_true']
  constructor
  · rintro ⟨⟨⟨⟨ha, hb⟩, hc⟩, hd⟩, he⟩
    exact ⟨⟨ha, by simpa using hb, hc, hd⟩, by simpa using he⟩
  · rintro ⟨⟨ha, hb, hc, hd⟩, he⟩
    exact ⟨⟨⟨⟨ha, by simpa using hb⟩, hc⟩, hd⟩, by simpa using he⟩

theorem aggLookup_processRule (cartSet : List PyStr) (minConf minLift : ℚ)
    (agg : List (PyStr × Agg)) (r : Rule) (item : PyStr) :
    aggLookup (processRule cartSet minConf minLift agg r) item =
      if contributes cartSet minConf minLift item r = true
      then some (applyContrib ((aggLookup agg item).getD aggDefault) r)
      else aggLookup agg item := by
  unfold processRule
  by_cases h1 : (antsLower r).all (fun a => cartSet.contains a) = true
  · rw [if_pos h1]
    simp only
    by_cases h2 : (¬(newItems cartSet r).isEmpty = true ∧
        minConf ≤ r.confidence ∧ minLift ≤ r.lift)
    · rw [if_pos h2]
      by_cases h3 : item ∈ (newItems cartSet r).map (resolveOrig r)
      · have hc : contributes cartSet minConf minLift item r = true :=
          (contributes_iff _ _ _ _ _).mpr ⟨⟨h1, h2⟩, h3⟩
        rw [if_pos hc]
        rcases List.mem_map.mp h3 with ⟨il, hil, hres⟩
        obtain ⟨l1, l2, hsplit⟩ := List.append_of_mem hil
        have hnodup : (newItems cartSet r).Nodup := (List.nodup_dedup _).filter _
        rw [hsplit, List.nodup_append] at hnodup
        have hil_not_l1 : il ∉ l1 := fun hmem => (hnodup.2.2 hmem) (by simp)
        have hil_not_l2 : il ∉ l2 := (List.nodup_cons.mp hnodup.2.1).1
        have hother : ∀ j, (j ∈ l1 ∨ j ∈ l2) → resolveOrig r j ≠ item := by
          intro j hj heq
          have hjmem : j ∈ newItems cartSet r := by
            rw [hsplit]
            rcases hj with hj | hj
            · exact List.mem_append.mpr (Or.inl hj)
            · exact List.mem_append.mpr (Or.inr (List.mem_cons_of_mem _ hj))
          have hj_eq : j = il :=
            resolveOrig_inj (mem_consLower_of_mem_newItems hjmem)
              (mem_consLower_of_mem_newItems hil) (by rw [heq, hres])
          rcases hj with hj | hj
          · exact hil_not_l1 (hj_eq ▸ hj)
          · exact hil_not_l2 (hj_eq ▸ hj)
        rw [hsplit, List.foldl_append, List.foldl_cons]
        rw [aggLookup_foldl_no_touch r.confidence r.lift r.support (resolveOrig r) item l2 _
          (fun j hj => hother j (Or.inr hj))]
        rw [hres, aggLookup_updateAgg_self]
        rw [aggLookup_foldl_no_touch r.confidence r.lift r.support (resolveOrig r) item l1 agg
          (fun j hj => hother j (Or.inl hj))]
        rfl
      · have hcf : ¬contributes cartSet minConf minLift item r = true :=
          fun hc => h3 ((contributes_iff _ _ _ _ _).mp hc).2
        rw [if_neg hcf]
        exact aggLookup_foldl_no_touch r.confidence r.lift r.support (resolveOrig r) item
          (newItems cartSet r) agg
          (fun j hj heq => h3 (List.mem_map.mpr ⟨j, hj, heq⟩))
    · rw [if_neg h2]
      have hcf : ¬contributes cartSet minConf minLift item r = true :=
        fun hc => h2 ((contributes_iff _ _ _ _ _).mp hc).1.2
      rw [if_neg hcf]
  · rw [if_neg h1]
    have hcf : ¬contributes cartSet minConf minLift item r = true :=
      fun hc => h1 ((contributes_iff _ _ _ _ _).mp hc).1.1
    rw [if_neg hcf]

theorem aggLookup_foldl_processRule (cartSet : List PyStr) (minConf minLift : ℚ)
    (item : PyStr) :
    ∀ (l : List Rule) (agg : List (PyStr × Agg)),
      aggLookup (l.foldl (processRule cartSet minConf minLift) agg) item =
        if aggLookup agg item = none ∧
            l.filter (contributes cartSet minConf minLift item) = []
        then none
        else some ((l.filter (contributes cartSet minConf minLift item)).foldl applyContrib
          ((aggLookup agg item).getD aggDefault)) := by
  intro l
  induction l with
  | nil =>
    intro agg
    cases h : aggLookup agg item with
    | none => simp [h]
    | some s => simp [h]
  | cons r rest ih =>
    intro agg
    rw [List.foldl_cons, ih (processRule cartSet minConf minLift agg r),
      aggLookup_processRule]
    by_cases hc : contributes cartSet minConf minLift item r = true
    · rw [if_pos hc, List.filter_cons_of_pos hc, if_neg (by simp), if_neg (by simp)]
      simp only [Option.getD_some, List.foldl_cons]
    · rw [if_neg hc, List.filter_cons_of_neg (by simpa using hc)]

theorem ruleAgg_lookup (rl : List Rule) (cartSet : List PyStr) (minConf minLift : ℚ)
    (item : PyStr) :
    aggLookup (ruleAgg rl cartSet minConf minLift) item =
      if contribRules rl cartSet minConf minLift item = [] then none
      else some ((contribRules rl cartSet minConf minLift item).foldl applyContrib
        aggDefault) := by
  unfold ruleAgg contribRules
  rw [aggLookup_foldl_processRule]
  simp [aggLookup_nil, aggDefault]

theorem foldl_applyContrib_count :
    ∀ (cr : List Rule) (s : Agg), (cr.foldl applyContrib s).count = s.count + cr.length := by
  intro cr
  induction cr with
  | nil => intro s; simp
  | cons r rest ih =>
    intro s
    rw [List.foldl_cons, ih]
    simp [applyContrib]
    omega

theorem foldl_applyContrib_support :
    ∀ (cr : List Rule) (s : Agg),
      (cr.foldl applyContrib s).support = s.support + (cr.map Rule.support).sum := by
  intro cr
  induction cr with
  | nil => intro s; simp
  | cons r rest ih =>
    intro s
    rw [List.foldl_cons, ih]
    simp [applyContrib]
    ring

theorem foldl_applyContrib_conf :
    ∀ (cr : List Rule) (s : Agg),
      (cr.foldl applyContrib s).confidence = (cr.map Rule.confidence).foldl max s.confidence := by
  intro cr
  induction cr with
  | nil => intro s; simp
  | cons r rest ih =>
    intro s
    rw [List.foldl_cons, ih]
    simp [applyContrib]

theorem foldl_applyContrib_lift :
    ∀ (cr : List Rule) (s : Agg),
      (cr.foldl applyContrib s).lift = (cr.map Rule.lift).foldl max s.lift := by
  intro cr
  induction cr with
  | nil => intro s; simp
  | cons r rest ih =>
    intro s
    rw [List.foldl_cons, ih]
    simp [applyContrib]

theorem foldl_max_is_ub :
    ∀ (l : List ℚ) (m : ℚ), m ≤ l.foldl max m ∧ ∀ x ∈ l, x ≤ l.foldl max m := by
  intro l
  induction l with
  | nil => intro m; exact ⟨le_refl m, by simp⟩
  | cons a rest ih =>
    intro m
    rw [List.foldl_cons]
    refine ⟨le_trans (le_max_left m a) (ih (max m a)).1, ?_⟩
    intro x hx
    rcases List.mem_cons.mp hx with rfl | hx
    · exact le_trans (le_max_right m x) (ih (max m x)).1
    · exact (ih (max m a)).2 x hx

theorem foldl_max_mem_or_init :
    ∀ (l : List ℚ) (m : ℚ), l.foldl max m = m ∨ l.foldl max m ∈ l := by
  intro l
  induction l with
  | nil => intro m; exact Or.inl rfl
  | cons a rest ih =>
    intro m
    rw [List.foldl_cons]
    rcases ih (max m a) with h | h
    · rcases max_choice m a with h2 | h2
      · rw [h, h2]
        exact Or.inl rfl
      · rw [h, h2]
        exact Or.inr (List.mem_cons_self a rest)
    · exact Or.inr (List.mem_cons_of_mem a h)

theorem foldl_max_zero_mem {l : List ℚ} (hne : l ≠ []) (hpos : ∀ x ∈ l, 0 ≤ x) :
    l.foldl max 0 ∈ l ∧ ∀ x ∈ l, x ≤ l.foldl max 0 := by
  refine ⟨?_, (foldl_max_is_ub l 0).2⟩
  rcases foldl_max_mem_or_init l 0 with h | h
  · obtain ⟨x0, hx0⟩ := List.exists_mem_of_ne_nil l hne
    have h1 : x0 ≤ 0 := h ▸ (foldl_max_is_ub l 0).2 x0 hx0
    have h2 : x0 = 0 := le_antisymm h1 (hpos x0 hx0)
    rw [h, ← h2]
    exact hx0
  · exact h

theorem updateAgg_keys_subset (conf lft sup : ℚ) (k : PyStr) :
    ∀ agg x, x ∈ (updateAgg conf lft sup agg k).map Prod.fst →
      x ∈ agg.map Prod.fst ∨ x = k := by
  intro agg
  induction agg with
  | nil =>
    intro x hx
    rw [updateAgg_nil] at hx
    simp at hx
    exact Or.inr hx
  | cons hd rest ih =>
    obtain ⟨k2, a⟩ := hd
    intro x hx
    rw [updateAgg_cons] at hx
    split at hx
    · refine Or.inl ?_
      rw [List.map_cons] at hx ⊢
      simpa using hx
    · rw [List.map_cons] at hx
      rcases List.mem_cons.mp hx with h | h
      · refine Or.inl ?_
        rw [List.map_cons, h]
        exact List.mem_cons_self _ _
      · rcases ih x h with h2 | h2
        · refine Or.inl ?_
          rw [List.map_cons]
          exact List.mem_cons_of_mem _ h2
        · exact Or.inr h2

theorem updateAgg_keys_nodup (conf lft sup : ℚ) (k : PyStr) :
    ∀ agg, ((agg.map Prod.fst).Nodup) →
      (((updateAgg conf lft sup agg k).map Prod.fst).Nodup) := by
  intro agg
  induction agg with
  | nil => intro _; simp [updateAgg_nil]
  | cons hd rest ih =>
    obtain ⟨k2, a⟩ := hd
    intro hnd
    rw [List.map_cons, List.nodup_cons] at hnd
    rw [updateAgg_cons]
    split
    · rw [List.map_cons, List.nodup_cons]
      exact hnd
    · next hne =>
      rw [List.map_cons, List.nodup_cons]
      refine ⟨?_, ih hnd.2⟩
      intro hmem
      rcases updateAgg_keys_subset conf lft sup k rest k2 hmem with h | h
      · exact hnd.1 h
      · exact hne h

theorem foldl_updateAgg_keys_nodup (conf lft sup : ℚ) (g : PyStr → PyStr) :
    ∀ (l : List PyStr) agg, ((agg.map Prod.fst).Nodup) →
      (((l.foldl (fun ag il => updateAgg conf lft sup ag (g il)) agg).map Prod.fst).Nodup) := by
  intro l
  induction l with
  | nil => intro agg h; exact h
  | cons il rest ih =>
    intro agg h
    rw [List.foldl_cons]
    exact ih _ (updateAgg_keys_nodup conf lft sup (g il) agg h)

theorem processRule_keys_nodup (cartSet : List PyStr) (minConf minLift : ℚ)
    (agg : List (PyStr × Agg)) (r : Rule) (h : (agg.map Prod.fst).Nodup) :
    (((processRule cartSet minConf minLift agg r).map Prod.fst).Nodup) := by
  unfold processRule
  split
  · simp only
    split
    · exact foldl_updateAgg_keys_nodup _ _ _ _ _ agg h
    · exact h
  · exact h

theorem ruleAgg_keys_nodup (rl : List Rule) (cartSet : List PyStr) (minConf minLift : ℚ) :
    (((ruleAgg rl cartSet minConf minLift).map Prod.fst).Nodup) := by
  suffices h : ∀ (l : List Rule) agg, ((agg.map Prod.fst).Nodup) →
      (((l.foldl (processRule cartSet minConf minLift) agg).map Prod.fst).Nodup) by
    exact h rl [] (by simp)
  intro l
  induction l with
  | nil => intro agg h; exact h
  | cons r rest ih =>
    intro agg h
    rw [List.foldl_cons]
    exact ih _ (processRule_keys_nodup cartSet minConf minLift agg r h)

theorem aggLookup_eq_of_mem :
    ∀ (agg : List (PyStr × Agg)), ((agg.map Prod.fst).Nodup) →
      ∀ p ∈ agg, aggLookup agg p.1 = some p.2 := by
  intro agg
  induction agg with
  | nil => intro _ p hp; simp at hp
  | cons hd rest ih =>
    obtain ⟨k2, a⟩ := hd
    intro hnd p hp
    rw [List.map_cons, List.nodup_cons] at hnd
    rcases List.mem_cons.mp hp with rfl | hp
    · rw [aggLookup_cons, if_pos rfl]
    · rw [aggLookup_cons, if_neg, ih hnd.2 p hp]
      intro heq
      exact hnd.1 (heq ▸ List.mem_map.mpr ⟨p, hp, rfl⟩)

/-- C5: For every item in the rule-based result, its confidence equals the
maximum confidence over the contributing rules, its lift the maximum lift,
its support the sum of their supports, its frequency their number, and its
score equals `confidence*0.5 + lift*0.3 + support*0.2`, with confidence, lift
and score rounded to 3 decimals and support to 4 (rules are valid per the
data model: non-negative confidence and lift). -/
theorem claim_C5_rule_aggregation (e : Engine) (cart : List PyStr) (topN : ℕ)
    (minConf minLift : ℚ) (rl : List Rule)
    (hrl : e.rules = some rl)
    (hvalid : ∀ r ∈ rl, 0 ≤ r.confidence ∧ 0 ≤ r.lift) :
    ∀ rec ∈ get_recommendations e cart topN minConf minLift, rec.source = Source.rules →
      AggregatesFrom (contribRules rl (cleanCart cart) minConf minLift rec.product) rec := by
  unfold get_recommendations
  split
  · intro rec h
    simp at h
  · simp only
    split
    · next out hout =>
      obtain ⟨rl2, hrl2, _, _, hform⟩ := ruleSection_eq_some hout
      rw [hrl] at hrl2
      obtain rfl : rl = rl2 := Option.some_inj.mp hrl2
      intro rec hrec _
      rw [hform] at hrec
      have h1 := mem_sortRecs.mp (List.take_subset _ _ hrec)
      rcases List.mem_map.mp h1 with ⟨p, hp, rfl⟩
      have hlook := aggLookup_eq_of_mem _ (ruleAgg_keys_nodup rl _ minConf minLift) p hp
      rw [ruleAgg_lookup] at hlook
      show AggregatesFrom (contribRules rl (cleanCart cart) minConf minLift p.1) _
      set cr := contribRules rl (cleanCart cart) minConf minLift p.1 with hcr
      by_cases hne : cr = []
      · rw [if_pos hne] at hlook
        exact absurd hlook (by simp)
      · rw [if_neg hne] at hlook
        have hs : p.2 = cr.foldl applyContrib aggDefault := (Option.some_inj.mp hlook).symm
        have hsup : p.2.support = (cr.map Rule.support).sum := by
          rw [hs, foldl_applyContrib_support]
          simp [aggDefault]
        have hcnt : p.2.count = cr.length := by
          rw [hs, foldl_applyContrib_count]
          simp [aggDefault]
        have hconf : p.2.confidence = (cr.map Rule.confidence).foldl max 0 := by
          rw [hs, foldl_applyContrib_conf]
          rfl
        have hlft : p.2.lift = (cr.map Rule.lift).foldl max 0 := by
          rw [hs, foldl_applyContrib_lift]
          rfl
        have hsubmem : ∀ r2 ∈ cr, r2 ∈ rl := fun r2 h2 => List.mem_of_mem_filter h2
        have hconfmem := foldl_max_zero_mem (l := cr.map Rule.confidence)
          (by simpa using hne)
          (by
            intro x hx
            rcases List.mem_map.mp hx with ⟨r2, h2, rfl⟩
            exact (hvalid r2 (hsubmem r2 h2)).1)
        have hlftmem := foldl_max_zero_mem (l := cr.map Rule.lift)
          (by simpa using hne)
          (by
            intro x hx
            rcases List.mem_map.mp hx with ⟨r2, h2, rfl⟩
            exact (hvalid r2 (hsubmem r2 h2)).2)
        refine ⟨hne, p.2.confidence, p.2.lift, ?_, ?_, ?_, ?_, rfl, rfl, ?_, ?_, ?_⟩
        · rw [hconf]
          exact hconfmem.1
        · intro x hx
          rw [hconf]
          exact hconfmem.2 x hx
        · rw [hlft]
          exact hlftmem.1
        · intro x hx
          rw [hlft]
          exact hlftmem.2 x hx
        · show roundTo 4 p.2.support = _
          rw [hsup]
        · show p.2.count = _
          exact hcnt
        · show roundTo 3 (p.2.confidence * (1 / 2) + p.2.lift * (3 / 10) +
            p.2.support * (1 / 5)) = _
          rw [hsup]
    · intro rec hrec hsrc
      have := (mem_cooccurRecs_fields _ _ _ rec hrec).1
      rw [hsrc] at this
      exact absurd this (by simp)

/-- Witness for C5 at the bread/butter engine: the butter record aggregates
from the contributing rules for the key `"butter"`. -/
theorem claim_C5_rule_aggregation_witness :
    AggregatesFrom
      (contribRules [ruleBB] (cleanCart [pystr "Bread (SKU: 001)"]) (3 / 10) 1 (pystr "butter"))
      { product := pystr "butter", confidence := 4 / 5, lift := some 2, support := 1 / 10,
        score := 51 / 50, frequency := 1, source := Source.rules } :=
  claim_C5_rule_aggregation engBB [pystr "Bread (SKU: 001)"] 5 (3 / 10) 1 [ruleBB] rfl
    (by
      intro r hr
      rw [List.mem_singleton] at hr
      subst hr
      constructor <;> norm_num [ruleBB])
    { product := pystr "butter", confidence := 4 / 5, lift := some 2, support := 1 / 10,
      score := 51 / 50, frequency := 1, source := Source.rules }
    (by rw [eval_engBB]; exact List.mem_singleton.mpr rfl) rfl

set_option maxHeartbeats 1000000 in
theorem eval_engC6 :
    get_recommendations engC6 [pystr "milk"] 5 (3 / 10) 1 =
      [{ product := pystr "eggs", confidence := 2 / 5, lift := none, support := 3333 / 10000,
         score := 38 / 100, frequency := 5, source := Source.cooccurrence }] := by
  simp [get_recommendations, engC6, ruleSection, cooccurRecs, coScores, coStep, updScore,
    nameMapLookup, icGet, buildCoRecs, coRecOf, sortRecs, cleanCart, cleanName, pyStrip,
    words, wordsAux, joinWords, containsPat, takeBefore, skuPat, isSpace, toLower, pystr,
    List.insertionSort, List.orderedInsert, List.dedup, List.find?, List.foldl]
  norm_num [roundTo, round_eq, Rec.mk.injEq]

/-- C6: For every candidate item in the co-occurrence fallback, its confidence
is `pair_sum/den_sum` (defaulting to 0 when `den_sum` is 0, so no division by
zero escapes), its support is `item_count[item] / max(1, sum of all item
counts)`, and its score is `0.7*confidence_like + 0.3*support_like`, rounded
as stated; in particular for `item_counts = {milk: 10, eggs: 5}`,
`pair_counts = {(milk, eggs): 4}` and cart `["milk"]`, the single candidate
`"eggs"` gets rounded score 0.38. -/
theorem claim_C6_fallback_scoring :
    (∀ (e : Engine) (cart : List PyStr) (topN : ℕ) (minConf minLift : ℚ)
        (ic : List (PyStr × ℕ)) (pc : List ((PyStr × PyStr) × ℕ)),
      e.item_counts = some ic → e.pair_counts = some pc →
      ∀ rec ∈ get_recommendations e cart topN minConf minLift,
        rec.source = Source.cooccurrence →
        ∃ s : CoScore,
          (rec.product, s) ∈ coScores ic pc (cleanCart cart)
            ((cleanCart cart).filter (fun c => (nameMapLookup ic c).isSome)) ∧
          rec.confidence = roundTo 3 (if s.den = 0 then 0 else (s.pair : ℚ) / (s.den : ℚ)) ∧
          rec.support = roundTo 4 ((icGet ic rec.product : ℚ) /
            ((max 1 ((ic.map Prod.snd).sum) : ℕ) : ℚ)) ∧
          rec.score = roundTo 3
            ((7 / 10) * (if s.den = 0 then 0 else (s.pair : ℚ) / (s.den : ℚ)) +
             (3 / 10) * ((icGet ic rec.product : ℚ) /
               ((max 1 ((ic.map Prod.snd).sum) : ℕ) : ℚ)))) ∧
    get_recommendations engC6 [pystr "milk"] 5 (3 / 10) 1 =
      [{ product := pystr "eggs", confidence := 2 / 5, lift := none, support := 3333 / 10000,
         score := 38 / 100, frequency := 5, source := Source.cooccurrence }] := by
  refine ⟨?_, eval_engC6⟩
  intro e cart topN minConf minLift ic pc hic hpc rec hrec hsrc
  unfold get_recommendations at hrec
  split at hrec
  · simp at hrec
  · simp only at hrec
    split at hrec
    · next out hout =>
      obtain ⟨rl, _, _, _, hform⟩ := ruleSection_eq_some hout
      rw [hform] at hrec
      have h1 := mem_sortRecs.mp (List.take_subset _ _ hrec)
      rcases List.mem_map.mp h1 with ⟨p, hp, rfl⟩
      exact Source.noConfusion hsrc
    · unfold cooccurRecs at hrec
      rw [hic, hpc] at hrec
      simp only at hrec
      split at hrec
      · simp at hrec
      · split at hrec
        · simp at hrec
        · split at hrec
          · simp at hrec
          · have h1 := mem_sortRecs.mp (List.take_subset _ _ hrec)
            rcases List.mem_map.mp h1 with ⟨p, hp, rfl⟩
            exact ⟨p.2, hp, rfl, rfl, rfl⟩

/-- Witness for C6's general part at the concrete fallback scenario. -/
theorem claim_C6_fallback_scoring_witness :
    ∃ s : CoScore,
      (pystr "eggs", s) ∈ coScores [(pystr "milk", 10), (pystr "eggs", 5)]
          [((pystr "milk", pystr "eggs"), 4)] (cleanCart [pystr "milk"])
          ((cleanCart [pystr "milk"]).filter
            (fun c => (nameMapLookup [(pystr "milk", 10), (pystr "eggs", 5)] c).isSome)) ∧
      (2 / 5 : ℚ) = roundTo 3 (if s.den = 0 then 0 else (s.pair : ℚ) / (s.den : ℚ)) ∧
      (3333 / 10000 : ℚ) = roundTo 4
        ((icGet [(pystr "milk", 10), (pystr "eggs", 5)] (pystr "eggs") : ℚ) /
          ((max 1 (([(pystr "milk", 10), (pystr "eggs", 5)].map Prod.snd).sum) : ℕ) : ℚ)) ∧
      (38 / 100 : ℚ) = roundTo 3
        ((7 / 10) * (if s.den = 0 then 0 else (s.pair : ℚ) / (s.den : ℚ)) +
         (3 / 10) * ((icGet [(pystr "milk", 10), (pystr "eggs", 5)] (pystr "eggs") : ℚ) /
           ((max 1 (([(pystr "milk", 10), (pystr "eggs", 5)].map Prod.snd).sum) : ℕ) : ℚ))) :=
  claim_C6_fallback_scoring.1 engC6 [pystr "milk"] 5 (3 / 10) 1
    [(pystr "milk", 10), (pystr "eggs", 5)] [((pystr "milk", pystr "eggs"), 4)] rfl rfl
    { product := pystr "eggs", confidence := 2 / 5, lift := none, support := 3333 / 10000,
      score := 38 / 100, frequency := 5, source := Source.cooccurrence }
    (by rw [eval_engC6]; exact List.mem_singleton.mpr rfl) rfl

set_option maxHeartbeats 1000000 in
theorem eval_engC8 :
    get_recommendations engC8 [pystr "a", pystr "b"] 5 (3 / 10) 1 =
      [{ product := pystr "x", confidence := 3, lift := none, support := 1 / 2,
         score := 9 / 4, frequency := 3, source := Source.cooccurrence }] := by
  simp [get_recommendations, engC8, ruleSection, cooccurRecs, coScores, coStep, updScore,
    nameMapLookup, icGet, buildCoRecs, coRecOf, sortRecs, cleanCart, cleanName, pyStrip,
    words, wordsAux, joinWords, containsPat, takeBefore, skuPat, isSpace, toLower, pystr,
    List.insertionSort, List.orderedInsert, List.dedup, List.find?, List.foldl]
  norm_num [roundTo, round_eq, Rec.mk.injEq]

/-- C8: There is an input — a cart of several known items, with pair counts in
which both cart items have pair entries toward the same candidate `x` with
differing counts — on which the fallback's confidence-like value for `x`
exceeds 1: `den_sum` accumulates each contributing cart item's own count
(here 1 + 2 = 3) while `pair_sum` accumulates the pair counts (4 + 5 = 9),
giving 9/3 = 3 > 1. -/
theorem claim_C8_confidence_like_exceeds_one :
    coScores [(pystr "a", 1), (pystr "b", 2), (pystr "x", 3)]
        [((pystr "a", pystr "x"), 4), ((pystr "b", pystr "x"), 5)]
        (cleanCart [pystr "a", pystr "b"])
        ((cleanCart [pystr "a", pystr "b"]).filter
          (fun c => (nameMapLookup [(pystr "a", 1), (pystr "b", 2), (pystr "x", 3)] c).isSome))
      = [(pystr "x", { pair := 9, den := 3 })] ∧
    ∃ rec ∈ get_recommendations engC8 [pystr "a", pystr "b"] 5 (3 / 10) 1,
      rec.product = pystr "x" ∧ 1 < rec.confidence := by
  constructor
  · decide
  · refine ⟨_, by rw [eval_engC8]; exact List.mem_singleton.mpr rfl, rfl, by norm_num⟩
